import Mathlib

/-!
Verification of the markdown-to-Google-Docs converter
(`src/utils/markdownProcessor.js`, functions `convertMarkdownToRequests` and
`processInlineFormatting`).

Strings are modelled as `List Char`; lengths are list lengths (the same unit
the source uses for cursor arithmetic).  All scanners are executable and
structural (bounded by a fuel argument initialised to the list length, which
the scan never exceeds since every step consumes at least one element), so
concrete runs evaluate inside the kernel.
-/

/-- Characters treated as whitespace by the source's `trim()` and `\s`
(restricted to the ASCII whitespace characters, the only ones the claims
exercise). -/
def isWS (c : Char) : Bool :=
  c = ' ' || c = '\t' || c = '\n' || c = '\r' || c = '\x0b' || c = '\x0c'

/-- Remove trailing whitespace (the right half of JavaScript `trim()`). -/
def jsTrimRight : List Char → List Char
  | [] => []
  | c :: rest =>
    match jsTrimRight rest with
    | [] => if isWS c then [] else [c]
    | r@(_ :: _) => c :: r

/-- JavaScript `String.prototype.trim()` on a list of characters. -/
def jsTrim (l : List Char) : List Char :=
  jsTrimRight (l.dropWhile isWS)

/-- JavaScript `markdown.split('\n')`: the empty string yields one empty
line, and a trailing newline yields a trailing empty line. -/
def splitLines : List Char → List (List Char)
  | [] => [[]]
  | c :: rest =>
    if c = '\n' then [] :: splitLines rest
    else
      match splitLines rest with
      | l :: ls => (c :: l) :: ls
      | [] => [[c]]

/-- `[a-zA-Z0-9]` from the code-fence regex. -/
def isAlnumChar (c : Char) : Bool := c.isAlpha || c.isDigit

/-- The backtick character (spelled via its code point). -/
def backquote : Char := Char.ofNat 96

/-- Matching of the regex tail `\s+(.+)$` against the remainder `s` of a
line, returning the `(.+)` capture.  `\s+` is greedy, so the capture is
everything after the leading whitespace run; when nothing follows the run
the engine backtracks one whitespace character, which then becomes the
capture (possible only when the run has length at least 2).  Lines contain
no newline, so `.` matches every remaining character. -/
def wsThenText (s : List Char) : Option (List Char) :=
  if (s.takeWhile isWS).length = 0 then none
  else
    match s.dropWhile isWS with
    | [] =>
      if 2 ≤ (s.takeWhile isWS).length then
        some ((s.takeWhile isWS).drop ((s.takeWhile isWS).length - 1))
      else none
    | r@(_ :: _) => some r

/-- `line.match(/^(#{1,6})\s+(.+)$/)`: the level and the heading text. -/
def headingMatch (line : List Char) : Option (Nat × List Char) :=
  let k := (line.takeWhile fun c => c = '#').length
  if 1 ≤ k ∧ k ≤ 6 then (wsThenText (line.drop k)).map fun t => (k, t)
  else none

/-- `line.match(/^(\s*)-\s+(.+)$/)`: the indent width and the item text. -/
def bulletedListMatch (line : List Char) : Option (Nat × List Char) :=
  match line.dropWhile isWS with
  | '-' :: after => (wsThenText after).map fun t => ((line.takeWhile isWS).length, t)
  | _ => none

/-- `line.match(/^(\s*)\d+\.\s+(.+)$/)`: the indent width and the item text. -/
def numberedListMatch (line : List Char) : Option (Nat × List Char) :=
  let after := line.dropWhile isWS
  let digits := (after.takeWhile Char.isDigit).length
  if digits = 0 then none
  else
    match after.drop digits with
    | '.' :: after2 => (wsThenText after2).map fun t => ((line.takeWhile isWS).length, t)
    | _ => none

/-- `line.trim().startsWith('```')`: the predicate closing a code fence. -/
def trimStartsFence (line : List Char) : Bool :=
  match jsTrim line with
  | a :: b :: c :: _ => a = backquote && b = backquote && c = backquote
  | _ => false

/-- `line.trim().match(/^```([a-zA-Z0-9]*)?$/)`: a code-fence opening line
(the trimmed line is three backticks followed only by alphanumerics). -/
def codeStartMatch (line : List Char) : Bool :=
  match jsTrim line with
  | a :: b :: c :: s => a = backquote && b = backquote && c = backquote && s.all isAlnumChar
  | _ => false

/-- Smallest offset in `s` at which the two-character delimiter `c1 c2`
occurs (the lazy search for the closing bold delimiter `\1`). -/
def findDelim (c1 c2 : Char) : List Char → Option Nat
  | x :: y :: rest =>
    if x = c1 ∧ y = c2 then some 0
    else (findDelim c1 c2 (y :: rest)).map fun n => n + 1
  | _ => none

/-- Smallest offset in `s` holding `c` not immediately followed by another
`c` (the closing italic delimiter `\1(?!\1)`, scanned lazily). -/
def findItalicClose (c : Char) : List Char → Option Nat
  | [] => none
  | x :: rest =>
    if x = c ∧ rest.head? ≠ some c then some 0
    else (findItalicClose c rest).map fun n => n + 1

/-- Smallest offset at which `](` occurs (the lazy close of a link's display
text followed by the opening of its url). -/
def findBracketParen : List Char → Option Nat
  | x :: y :: rest =>
    if x = ']' ∧ y = '(' then some 0
    else (findBracketParen (y :: rest)).map fun n => n + 1
  | _ => none

/-- Smallest offset holding the character `c`. -/
def findChar (c : Char) : List Char → Option Nat
  | [] => none
  | x :: rest =>
    if x = c then some 0
    else (findChar c rest).map fun n => n + 1

/-- All matches of the bold regex `(\*\*|__)(.*?)\1` with the `g` flag.
Each entry is `(innerStart, innerLength)` relative to the scanned text: the
JavaScript loop records `matchStart = match.index + 2` and
`matchEnd = matchStart + match[2].length`.  Scanning resumes at each
match's end (`lastIndex`). -/
def boldMatchesGo : Nat → List Char → Nat → List (Nat × Nat)
  | 0, _, _ => []
  | _ + 1, [], _ => []
  | _ + 1, [_], _ => []
  | fuel + 1, c1 :: c2 :: rest, p =>
    if (c1 = '*' ∧ c2 = '*') ∨ (c1 = '_' ∧ c2 = '_') then
      match findDelim c1 c2 rest with
      | some e => (p + 2, e) :: boldMatchesGo fuel (rest.drop (e + 2)) (p + 4 + e)
      | none => boldMatchesGo fuel (c2 :: rest) (p + 1)
    else boldMatchesGo fuel (c2 :: rest) (p + 1)

def boldMatches (text : List Char) : List (Nat × Nat) :=
  boldMatchesGo text.length text 0

/-- All matches of the italic regex `(?<!\*|_)(\*|_)((?!\1).*?)\1(?!\1)`
with the `g` flag.  `prev` is the character before the current scan
position (for the lookbehind).  Each entry is `(innerStart, innerLength)`:
the JavaScript loop records `matchStart = match.index + 1`. -/
def italicMatchesGo : Nat → Option Char → List Char → Nat → List (Nat × Nat)
  | 0, _, _, _ => []
  | _ + 1, _, [], _ => []
  | fuel + 1, prev, c :: rest, p =>
    if (c = '*' ∨ c = '_') ∧ prev ≠ some '*' ∧ prev ≠ some '_' ∧ rest.head? ≠ some c then
      match findItalicClose c (rest.drop 1) with
      | some f =>
        (p + 1, f + 1) :: italicMatchesGo fuel (some c) (rest.drop (f + 2)) (p + f + 3)
      | none => italicMatchesGo fuel (some c) rest (p + 1)
    else italicMatchesGo fuel (some c) rest (p + 1)

def italicMatches (text : List Char) : List (Nat × Nat) :=
  italicMatchesGo text.length none text 0

/-- All matches of the link regex `\[(.*?)\]\((.*?)\)` with the `g` flag.
Each entry is `((displayStart, displayLength), url)`: the JavaScript loop
records `linkStart = match.index + 1` and `linkEnd = linkStart +
match[1].length`. -/
def linkMatchesGo : Nat → List Char → Nat → List ((Nat × Nat) × List Char)
  | 0, _, _ => []
  | _ + 1, [], _ => []
  | fuel + 1, c :: rest, p =>
    if c = '[' then
      match findBracketParen rest with
      | some q =>
        match findChar ')' (rest.drop (q + 2)) with
        | some r =>
          ((p + 1, q), (rest.drop (q + 2)).take r) ::
            linkMatchesGo fuel (rest.drop (q + r + 3)) (p + q + r + 4)
        | none => linkMatchesGo fuel rest (p + 1)
      | none => linkMatchesGo fuel rest (p + 1)
    else linkMatchesGo fuel rest (p + 1)

def linkMatches (text : List Char) : List ((Nat × Nat) × List Char) :=
  linkMatchesGo text.length text 0

/-- `bulletPreset` values used by the source. -/
inductive BulletPreset
  | bulletDiscCircleSquare
  | numberedDecimalNested
deriving DecidableEq

/-- `paragraphStyle` payloads used by the source: either
`namedStyleType: HEADING_<level>` or the pair of indent magnitudes (in PT). -/
inductive ParagraphStyle
  | namedStyleType (level : Nat)
  | indentPt (indentStart indentFirstLine : Nat)
deriving DecidableEq

/-- `textStyle` payloads used by the source.  `codeFont` stands for
`fontFamily: 'Courier New'` together with the light-gray
`backgroundColor` rgb(0.95, 0.95, 0.95). -/
inductive TextStyleKind
  | bold
  | italic
  | link (url : List Char)
  | codeFont
deriving DecidableEq

/-- The Google Docs API requests emitted by the converter. -/
inductive Op
  | insertText (text : List Char) (atIndex : Nat)
  | updateParagraphStyle (style : ParagraphStyle) (startIndex endIndex : Nat)
  | createParagraphBullets (startIndex endIndex : Nat) (preset : BulletPreset)
  | updateTextStyle (style : TextStyleKind) (startIndex endIndex : Nat)
deriving DecidableEq

/-- `processInlineFormatting(requests, text, startIndex)`: the operations it
pushes, in source order (all bold ops, then all italic ops, then all link
ops).  The italic matches are passed in as an `Option` so that the
`try/catch` around the italic loop can be modelled: `none` stands for the
italic scan raising, in which case the catch block skips the italic
operations and control continues with link processing. -/
def processInlineFormattingWith (ital : Option (List (Nat × Nat)))
    (text : List Char) (startIndex : Nat) : List Op :=
  ((boldMatches text).map fun m =>
      Op.updateTextStyle .bold (startIndex + m.1) (startIndex + m.1 + m.2)) ++
  ((ital.getD []).map fun m =>
      Op.updateTextStyle .italic (startIndex + m.1) (startIndex + m.1 + m.2)) ++
  ((linkMatches text).map fun m =>
      Op.updateTextStyle (.link m.2) (startIndex + m.1.1) (startIndex + m.1.1 + m.1.2))

/-- Classification of a single line, in the source's test order: blank,
heading, bulleted list, numbered list, code-fence opening (full regex
match), otherwise paragraph. -/
inductive LineClass
  | blank
  | heading (level : Nat) (text : List Char)
  | bulleted (indent : Nat) (text : List Char)
  | numbered (indent : Nat) (text : List Char)
  | codeFenceStart
  | paragraph
deriving DecidableEq

def classifyLine (line : List Char) : LineClass :=
  if jsTrim line = [] then .blank
  else
    match headingMatch line with
    | some (k, t) => .heading k t
    | none =>
      match bulletedListMatch line with
      | some (i, t) => .bulleted i t
      | none =>
        match numberedListMatch line with
        | some (i, t) => .numbered i t
        | none => if codeStartMatch line then .codeFenceStart else .paragraph

/-- The text of a code block: the consumed lines, each with a newline
appended (`codeContent += lines[j] + '\n'`). -/
def codeText (ls : List (List Char)) : List Char :=
  (ls.map fun l => l ++ ['\n']).flatten

/-- The main loop of `convertMarkdownToRequests`, processing the remaining
lines at the current insertion `idx` and returning the emitted requests
together with the final value of `index`.  `italOf` supplies the italic
matches per line (see `processInlineFormattingWith`).  The fuel is
initialised to the number of lines; every step consumes at least one line
and exactly one unit of fuel, so the zero-fuel base case is never hit. -/
def processLinesGo (italOf : List Char → Option (List (Nat × Nat))) :
    Nat → List (List Char) → Nat → List Op × Nat
  | 0, _, idx => ([], idx)
  | _ + 1, [], idx => ([], idx)
  | fuel + 1, line :: rest, idx =>
    match classifyLine line with
    | .blank =>
      let r := processLinesGo italOf fuel rest (idx + 1)
      (Op.insertText ['\n'] idx :: r.1, r.2)
    | .heading k t =>
      let r := processLinesGo italOf fuel rest (idx + t.length + 1)
      (Op.insertText (t ++ ['\n']) idx ::
        Op.updateParagraphStyle (.namedStyleType k) idx (idx + t.length) :: r.1, r.2)
    | .bulleted ind t =>
      let r := processLinesGo italOf fuel rest (idx + t.length + 1)
      (Op.insertText (t ++ ['\n']) idx ::
        Op.createParagraphBullets idx (idx + t.length) .bulletDiscCircleSquare ::
        ((if 0 < ind then
            [Op.updateParagraphStyle (.indentPt (ind * 18) 0) idx (idx + t.length)]
          else []) ++ r.1), r.2)
    | .numbered ind t =>
      let r := processLinesGo italOf fuel rest (idx + t.length + 1)
      (Op.insertText (t ++ ['\n']) idx ::
        Op.createParagraphBullets idx (idx + t.length) .numberedDecimalNested ::
        ((if 0 < ind then
            [Op.updateParagraphStyle (.indentPt (ind * 18) 0) idx (idx + t.length)]
          else []) ++ r.1), r.2)
    | .codeFenceStart =>
      let code := codeText (rest.takeWhile fun l => !(trimStartsFence l))
      let rest2 := (rest.dropWhile fun l => !(trimStartsFence l)).drop 1
      let r := processLinesGo italOf fuel rest2 (idx + code.length)
      (Op.insertText code idx ::
        Op.updateTextStyle .codeFont idx (idx + code.length) :: r.1, r.2)
    | .paragraph =>
      let r := processLinesGo italOf fuel rest (idx + line.length + 1)
      (Op.insertText (line ++ ['\n']) idx ::
        (processInlineFormattingWith (italOf line) line idx ++ r.1), r.2)

def processLines (italOf : List Char → Option (List (Nat × Nat)))
    (lines : List (List Char)) (idx : Nat) : List Op × Nat :=
  processLinesGo italOf lines.length lines idx

/-- The italic scanner as the source runs it (the `try` block succeeds). -/
def italOfDefault (t : List Char) : Option (List (Nat × Nat)) :=
  some (italicMatches t)

/-- The italic scanner raising an internal error on every line (the `catch`
block is taken). -/
def italOfFailing (_ : List Char) : Option (List (Nat × Nat)) :=
  none

def convertMarkdownToRequestsWith (italOf : List Char → Option (List (Nat × Nat)))
    (markdown : List Char) : List Op :=
  (processLines italOf (splitLines markdown) 1).1

/-- `convertMarkdownToRequests(markdown)`: the emitted request list, with
the cursor `index` starting at 1. -/
def convertMarkdownToRequests (markdown : List Char) : List Op :=
  convertMarkdownToRequestsWith italOfDefault markdown

/-- The final value of the local `index` variable after the conversion. -/
def finalIndex (markdown : List Char) : Nat :=
  (processLines italOfDefault (splitLines markdown) 1).2

/-- Length of the text inserted by an operation (0 for style-only ops). -/
def insLen : Op → Nat
  | .insertText t _ => t.length
  | _ => 0

/-- The `endIndex` of an operation's range, when it carries one. -/
def rangeEnd? : Op → Option Nat
  | .insertText _ _ => none
  | .updateParagraphStyle _ _ e => some e
  | .createParagraphBullets _ e _ => some e
  | .updateTextStyle _ _ e => some e

/-- Total inserted text length of an operation sequence. -/
def sumIns (ops : List Op) : Nat :=
  (ops.map insLen).sum

/-- The cursor value at the time the `k`-th operation is emitted: the
initial cursor `1` advanced by the length of each previously inserted
text. -/
def cursorAt (ops : List Op) (k : Nat) : Nat :=
  1 + sumIns (ops.take k)

/-- The emission invariant, threaded from cursor `c`: every operation that
carries a range has `rangeEnd` at most the cursor at its emission time, and
the cursor advances by each operation's inserted-text length. -/
def opsOK : Nat → List Op → Prop
  | _, [] => True
  | c, op :: rest => (∀ e, rangeEnd? op = some e → e ≤ c) ∧ opsOK (c + insLen op) rest

/-- An operation that sets the italic text style. -/
def isItalicOp : Op → Bool
  | .updateTextStyle .italic _ _ => true
  | _ => false

/-! ## Basic facts about `sumIns` and `opsOK` -/

theorem sumIns_nil : sumIns [] = 0 := rfl

theorem sumIns_cons (op : Op) (l : List Op) : sumIns (op :: l) = insLen op + sumIns l := by
  simp [sumIns]

theorem sumIns_append (a b : List Op) : sumIns (a ++ b) = sumIns a + sumIns b := by
  simp [sumIns]

theorem sumIns_eq_zero : ∀ {l : List Op}, (∀ op ∈ l, insLen op = 0) → sumIns l = 0 := by
  intro l
  induction l with
  | nil => intro _; rfl
  | cons op t ih =>
    intro h
    rw [sumIns_cons, h op (List.mem_cons_self op t), ih fun o ho => h o (List.mem_cons_of_mem op ho)]

theorem opsOK_append : ∀ {xs : List Op} {c : Nat} {ys : List Op},
    opsOK c xs → opsOK (c + sumIns xs) ys → opsOK c (xs ++ ys) := by
  intro xs
  induction xs with
  | nil => intro c ys _ h2; simpa [sumIns_nil] using h2
  | cons op l ih =>
    intro c ys h1 h2
    refine ⟨h1.1, ih h1.2 ?_⟩
    rw [sumIns_cons, ← Nat.add_assoc] at h2
    exact h2

theorem opsOK_of_styles {c : Nat} : ∀ {l : List Op},
    (∀ op ∈ l, insLen op = 0 ∧ ∀ e, rangeEnd? op = some e → e ≤ c) → opsOK c l := by
  intro l
  induction l with
  | nil => intro _; trivial
  | cons op t ih =>
    intro h
    refine ⟨(h op (List.mem_cons_self op t)).2, ?_⟩
    rw [(h op (List.mem_cons_self op t)).1, Nat.add_zero]
    exact ih fun o ho => h o (List.mem_cons_of_mem op ho)

theorem sumIns_take_le (l : List Op) : ∀ n, sumIns (l.take n) ≤ sumIns l := by
  induction l with
  | nil => intro n; simp
  | cons op t ih =>
    intro n
    cases n with
    | zero => simp [sumIns_nil]
    | succ n =>
      rw [List.take_succ_cons, sumIns_cons, sumIns_cons]
      exact Nat.add_le_add_left (ih n) _

theorem sumIns_take_mono (l : List Op) {i j : Nat} (h : i ≤ j) :
    sumIns (l.take i) ≤ sumIns (l.take j) := by
  have heq : l.take i = (l.take j).take i := by
    rw [List.take_take, Nat.min_eq_left h]
  rw [heq]
  exact sumIns_take_le _ _

/-! ## Bounds on the inline scanners -/

theorem findDelim_bound {c1 c2 : Char} : ∀ (s : List Char) (e : Nat),
    findDelim c1 c2 s = some e → e + 2 ≤ s.length := by
  intro s
  induction s with
  | nil => intro e h; simp [findDelim] at h
  | cons x rest ih =>
    intro e h
    cases rest with
    | nil => simp [findDelim] at h
    | cons y rest2 =>
      rw [findDelim] at h
      split at h
      · cases h; simp
      · obtain ⟨n, hn, rfl⟩ := Option.map_eq_some'.mp h
        have := ih n hn
        simp at this ⊢
        omega

theorem findItalicClose_bound {c : Char} : ∀ (s : List Char) (f : Nat),
    findItalicClose c s = some f → f + 1 ≤ s.length := by
  intro s
  induction s with
  | nil => intro f h; simp [findItalicClose] at h
  | cons x rest ih =>
    intro f h
    rw [findItalicClose] at h
    split at h
    · cases h; simp
    · obtain ⟨n, hn, rfl⟩ := Option.map_eq_some'.mp h
      have := ih n hn
      simp at this ⊢
      omega

theorem findBracketParen_bound : ∀ (s : List Char) (q : Nat),
    findBracketParen s = some q → q + 2 ≤ s.length := by
  intro s
  induction s with
  | nil => intro q h; simp [findBracketParen] at h
  | cons x rest ih =>
    intro q h
    cases rest with
    | nil => simp [findBracketParen] at h
    | cons y rest2 =>
      rw [findBracketParen] at h
      split at h
      · cases h; simp
      · obtain ⟨n, hn, rfl⟩ := Option.map_eq_some'.mp h
        have := ih n hn
        simp at this ⊢
        omega

theorem findChar_bound {c : Char} : ∀ (s : List Char) (r : Nat),
    findChar c s = some r → r + 1 ≤ s.length := by
  intro s
  induction s with
  | nil => intro r h; simp [findChar] at h
  | cons x rest ih =>
    intro r h
    rw [findChar] at h
    split at h
    · cases h; simp
    · obtain ⟨n, hn, rfl⟩ := Option.map_eq_some'.mp h
      have := ih n hn
      simp at this ⊢
      omega

theorem boldMatchesGo_bound : ∀ (fuel : Nat) (s : List Char) (p : Nat) (m : Nat × Nat),
    m ∈ boldMatchesGo fuel s p → m.1 + m.2 + 2 ≤ p + s.length := by
  intro fuel
  induction fuel with
  | zero => intro s p m h; simp [boldMatchesGo] at h
  | succ fuel ih =>
    intro s p m h
    match s with
    | [] => simp [boldMatchesGo] at h
    | [c] => simp [boldMatchesGo] at h
    | c1 :: c2 :: rest =>
      rw [boldMatchesGo] at h
      split at h
      · split at h
        case _ e heq =>
          have hb := findDelim_bound rest e heq
          rcases List.mem_cons.mp h with h1 | h1
          · subst h1; simp; omega
          · have := ih _ _ _ h1
            simp [List.length_drop] at this ⊢
            omega
        case _ =>
          have := ih _ _ _ h
          simp at this ⊢
          omega
      · have := ih _ _ _ h
        simp at this ⊢
        omega

theorem italicMatchesGo_bound : ∀ (fuel : Nat) (prev : Option Char) (s : List Char) (p : Nat)
    (m : Nat × Nat), m ∈ italicMatchesGo fuel prev s p → m.1 + m.2 + 1 ≤ p + s.length := by
  intro fuel
  induction fuel with
  | zero => intro prev s p m h; simp [italicMatchesGo] at h
  | succ fuel ih =>
    intro prev s p m h
    match s with
    | [] => simp [italicMatchesGo] at h
    | c :: rest =>
      rw [italicMatchesGo] at h
      split at h
      · split at h
        case _ f heq =>
          have hb := findItalicClose_bound _ f heq
          rw [List.length_drop] at hb
          rcases List.mem_cons.mp h with h1 | h1
          · subst h1; simp; omega
          · have := ih _ _ _ _ h1
            simp [List.length_drop] at this ⊢
            omega
        case _ =>
          have := ih _ _ _ _ h
          simp at this ⊢
          omega
      · have := ih _ _ _ _ h
        simp at this ⊢
        omega

theorem linkMatchesGo_bound : ∀ (fuel : Nat) (s : List Char) (p : Nat)
    (m : (Nat × Nat) × List Char), m ∈ linkMatchesGo fuel s p → m.1.1 + m.1.2 + 1 ≤ p + s.length := by
  intro fuel
  induction fuel with
  | zero => intro s p m h; simp [linkMatchesGo] at h
  | succ fuel ih =>
    intro s p m h
    match s with
    | [] => simp [linkMatchesGo] at h
    | c :: rest =>
      rw [linkMatchesGo] at h
      split at h
      · split at h
        case _ q heq =>
          have hq := findBracketParen_bound rest q heq
          split at h
          case _ r heqr =>
            have hr := findChar_bound _ r heqr
            rw [List.length_drop] at hr
            rcases List.mem_cons.mp h with h1 | h1
            · subst h1; simp; omega
            · have := ih _ _ _ h1
              simp [List.length_drop] at this ⊢
              omega
          case _ =>
            have := ih _ _ _ h
            simp at this ⊢
            omega
        case _ =>
          have := ih _ _ _ h
          simp at this ⊢
          omega
      · have := ih _ _ _ h
        simp at this ⊢
        omega

/-! ## The inline formatter only emits bounded, style-only operations -/

theorem inline_insLen_zero (ital : Option (List (Nat × Nat))) (text : List Char) (s : Nat) :
    ∀ op ∈ processInlineFormattingWith ital text s, insLen op = 0 := by
  intro op hop
  simp only [processInlineFormattingWith, List.mem_append, List.mem_map] at hop
  rcases hop with (⟨m, _, rfl⟩ | ⟨m, _, rfl⟩) | ⟨m, _, rfl⟩ <;> rfl

theorem inline_sumIns_zero (ital : Option (List (Nat × Nat))) (text : List Char) (s : Nat) :
    sumIns (processInlineFormattingWith ital text s) = 0 :=
  sumIns_eq_zero (inline_insLen_zero ital text s)

theorem inline_rangeEnd_bound (text : List Char) (s : Nat) :
    ∀ op ∈ processInlineFormattingWith (italOfDefault text) text s,
      ∀ e, rangeEnd? op = some e → e ≤ s + text.length := by
  intro op hop e he
  simp only [processInlineFormattingWith, italOfDefault, Option.getD_some,
    List.mem_append, List.mem_map] at hop
  rcases hop with (⟨m, hm, rfl⟩ | ⟨m, hm, rfl⟩) | ⟨m, hm, rfl⟩
  · have hb := boldMatchesGo_bound text.length text 0 m (by simpa [boldMatches] using hm)
    simp [rangeEnd?] at he
    omega
  · have hb := italicMatchesGo_bound text.length none text 0 m
      (by simpa [italicMatches] using hm)
    simp [rangeEnd?] at he
    omega
  · have hb := linkMatchesGo_bound text.length text 0 m (by simpa [linkMatches] using hm)
    simp [rangeEnd?] at he
    omega

/-! ## Heads of trimmed lines, and how a line gets classified -/

theorem dropWhile_head_not {p : Char → Bool} : ∀ (l : List Char) (c : Char) (r : List Char),
    l.dropWhile p = c :: r → p c = false := by
  intro l
  induction l with
  | nil => intro c r h; simp at h
  | cons a t ih =>
    intro c r h
    rw [List.dropWhile_cons] at h
    split at h
    · exact ih _ _ h
    · rename_i hfalse
      injection h with h1 _
      subst h1
      simpa using hfalse

theorem jsTrimRight_cons_of_not_ws {c : Char} {l : List Char} (h : isWS c = false) :
    jsTrimRight (c :: l) = c :: jsTrimRight l := by
  rw [jsTrimRight]
  cases hjt : jsTrimRight l with
  | nil => simp [h]
  | cons x xs => rfl

theorem jsTrim_cons_head {l : List Char} {c : Char} {r : List Char}
    (h : l.dropWhile isWS = c :: r) : jsTrim l = c :: jsTrimRight r := by
  have hc : isWS c = false := dropWhile_head_not l c r h
  rw [jsTrim, h, jsTrimRight_cons_of_not_ws hc]

theorem takeWhile_ne_nil_head {p : Char → Bool} : ∀ {l : List Char},
    (l.takeWhile p).length ≠ 0 → ∃ c r, l = c :: r ∧ p c = true := by
  intro l h
  cases l with
  | nil => simp at h
  | cons a t =>
    refine ⟨a, t, rfl, ?_⟩
    by_contra hp
    rw [List.takeWhile_cons] at h
    simp [Bool.eq_false_iff.mpr hp] at h

theorem heading_none_of_dropWhile {line : List Char} {c0 : Char} {r0 : List Char}
    (hdw : line.dropWhile isWS = c0 :: r0) (hne : c0 ≠ '#') : headingMatch line = none := by
  cases line with
  | nil => simp at hdw
  | cons x xs =>
    by_cases hx : x = '#'
    · subst hx
      rw [List.dropWhile_cons] at hdw
      have : isWS '#' = false := by decide
      rw [this] at hdw
      simp at hdw
      exact absurd hdw.1.symm hne
    · rw [headingMatch]
      have htw : (x :: xs).takeWhile (fun c => c = '#') = [] := by
        rw [List.takeWhile_cons]
        simp [hx]
      rw [htw]
      simp

theorem bulleted_none_of_head {line : List Char} {c0 : Char} {r0 : List Char}
    (hdw : line.dropWhile isWS = c0 :: r0) (hne : c0 ≠ '-') : bulletedListMatch line = none := by
  rw [bulletedListMatch, hdw]
  split
  · rename_i heq
    injection heq with h1 _
    exact absurd h1 hne
  · rfl

theorem numbered_none_of_head {line : List Char} {c0 : Char} {r0 : List Char}
    (hdw : line.dropWhile isWS = c0 :: r0) (hne : c0.isDigit = false) :
    numberedListMatch line = none := by
  rw [numberedListMatch, hdw]
  have htw : (c0 :: r0).takeWhile Char.isDigit = [] := by
    rw [List.takeWhile_cons, hne]
    rfl
  rw [htw]
  simp

theorem isDigit_not_ws {d : Char} (h : d.isDigit = true) : isWS d = false := by
  by_contra hws
  rw [Bool.not_eq_false] at hws
  rw [isWS] at hws
  simp only [Bool.or_eq_true, decide_eq_true_eq] at hws
  rcases hws with ((((h1 | h1) | h1) | h1) | h1) | h1 <;> subst h1 <;> simp at h

theorem classify_of_heading {line : List Char} {k : Nat} {t : List Char}
    (h : headingMatch line = some (k, t)) : classifyLine line = .heading k t := by
  have hk : (line.takeWhile fun c => c = '#').length ≠ 0 := by
    intro h0
    rw [headingMatch, h0] at h
    simp at h
  obtain ⟨c, r, rfl, hc⟩ := takeWhile_ne_nil_head hk
  have hc' : c = '#' := by simpa using hc
  subst hc'
  have hdrop : ('#' :: r).dropWhile isWS = '#' :: r := by
    rw [List.dropWhile_cons]
    have : isWS '#' = false := by decide
    rw [this]
    rfl
  have htrim : jsTrim ('#' :: r) = '#' :: jsTrimRight r := jsTrim_cons_head hdrop
  rw [classifyLine, htrim]
  simp [h]

theorem classify_of_bulleted {line : List Char} {i : Nat} {t : List Char}
    (h : bulletedListMatch line = some (i, t)) : classifyLine line = .bulleted i t := by
  have h0 := h
  rw [bulletedListMatch] at h0
  split at h0
  · rename_i after heq
    have htrim : jsTrim line = '-' :: jsTrimRight after := jsTrim_cons_head heq
    have hne : jsTrim line ≠ [] := by rw [htrim]; exact List.cons_ne_nil _ _
    have hh : headingMatch line = none := heading_none_of_dropWhile heq (by decide)
    rw [classifyLine, if_neg hne, hh, h]
  · simp at h0

theorem classify_of_numbered {line : List Char} {i : Nat} {t : List Char}
    (h : numberedListMatch line = some (i, t)) : classifyLine line = .numbered i t := by
  have h0 := h
  rw [numberedListMatch] at h0
  by_cases hd : ((line.dropWhile isWS).takeWhile Char.isDigit).length = 0
  · rw [if_pos hd] at h0
    simp at h0
  · obtain ⟨d, r2, hdw, hdig⟩ := takeWhile_ne_nil_head hd
    have hne : jsTrim line ≠ [] := by
      rw [jsTrim_cons_head hdw]
      exact List.cons_ne_nil _ _
    have hh : headingMatch line = none := by
      refine heading_none_of_dropWhile hdw ?_
      intro h1
      subst h1
      simp at hdig
    have hb : bulletedListMatch line = none := by
      refine bulleted_none_of_head hdw ?_
      intro h1
      subst h1
      simp at hdig
    rw [classifyLine, if_neg hne, hh, hb, h]

theorem classify_of_fence {line : List Char} (h : codeStartMatch line = true) :
    classifyLine line = .codeFenceStart := by
  have h0 := h
  rw [codeStartMatch] at h0
  split at h0
  · rename_i a b c s heq
    simp only [Bool.and_eq_true, decide_eq_true_eq] at h0
    obtain ⟨⟨⟨ha, hb⟩, hc⟩, _⟩ := h0
    subst ha
    have hne : jsTrim line ≠ [] := by rw [heq]; exact List.cons_ne_nil _ _
    obtain ⟨c0, r0, hdw⟩ : ∃ c0 r0, line.dropWhile isWS = c0 :: r0 := by
      cases hdw : line.dropWhile isWS with
      | nil =>
        exfalso
        apply hne
        rw [jsTrim, hdw]
        rfl
      | cons c0 r0 => exact ⟨c0, r0, rfl⟩
    have hc0 : c0 = backquote := by
      have := jsTrim_cons_head hdw
      rw [heq] at this
      injection this with h1 _
      exact h1.symm
    subst hc0
    have hh : headingMatch line = none := heading_none_of_dropWhile hdw (by decide)
    have hbu : bulletedListMatch line = none := bulleted_none_of_head hdw (by decide)
    have hnu : numberedListMatch line = none := numbered_none_of_head hdw (by decide)
    rw [classifyLine, if_neg hne, hh, hbu, hnu, if_pos h]
  · exact absurd h0 (by simp)

/-! ## The main loop: cursor invariant, final index, italic-failure run -/

theorem processLinesGo_nil (italOf : List Char → Option (List (Nat × Nat))) :
    ∀ (fuel idx : Nat), processLinesGo italOf fuel [] idx = ([], idx) := by
  intro fuel idx
  cases fuel <;> rfl

theorem processLinesGo_opsOK : ∀ (fuel : Nat) (lines : List (List Char)) (idx : Nat),
    opsOK idx (processLinesGo italOfDefault fuel lines idx).1 := by
  intro fuel
  induction fuel with
  | zero => intro lines idx; trivial
  | succ fuel ih =>
    intro lines idx
    cases lines with
    | nil => trivial
    | cons line rest =>
      rw [processLinesGo]
      cases hcl : classifyLine line with
      | blank =>
        refine ⟨?_, ?_⟩
        · intro e he; simp [rangeEnd?] at he
        · simpa [insLen] using ih rest (idx + 1)
      | heading k t =>
        refine ⟨?_, ?_, ?_⟩
        · intro e he; simp [rangeEnd?] at he
        · intro e he
          simp [rangeEnd?] at he
          simp [insLen]
          omega
        · have := ih rest (idx + t.length + 1)
          simpa [insLen, rangeEnd?, Nat.add_assoc] using this
      | bulleted ind t =>
        refine ⟨?_, ?_, ?_⟩
        · intro e he; simp [rangeEnd?] at he
        · intro e he
          simp [rangeEnd?] at he
          simp [insLen]
          omega
        · simp only [insLen, rangeEnd?, List.length_append, List.length_cons,
            List.length_nil, Nat.add_zero]
          refine opsOK_append ?_ ?_
          · by_cases hind : 0 < ind
            · rw [if_pos hind]
              refine ⟨?_, ?_⟩
              · intro e he
                simp [rangeEnd?] at he
                omega
              · trivial
            · rw [if_neg hind]; trivial
          · have hz : sumIns (if 0 < ind then
                [Op.updateParagraphStyle (.indentPt (ind * 18) 0) idx (idx + t.length)]
              else []) = 0 := by
              by_cases hind : 0 < ind
              · rw [if_pos hind]; rfl
              · rw [if_neg hind]; rfl
            rw [hz, Nat.add_zero]
            have := ih rest (idx + t.length + 1)
            simpa [Nat.add_assoc] using this
      | numbered ind t =>
        refine ⟨?_, ?_, ?_⟩
        · intro e he; simp [rangeEnd?] at he
        · intro e he
          simp [rangeEnd?] at he
          simp [insLen]
          omega
        · simp only [insLen, rangeEnd?, List.length_append, List.length_cons,
            List.length_nil, Nat.add_zero]
          refine opsOK_append ?_ ?_
          · by_cases hind : 0 < ind
            · rw [if_pos hind]
              refine ⟨?_, ?_⟩
              · intro e he
                simp [rangeEnd?] at he
                omega
              · trivial
            · rw [if_neg hind]; trivial
          · have hz : sumIns (if 0 < ind then
                [Op.updateParagraphStyle (.indentPt (ind * 18) 0) idx (idx + t.length)]
              else []) = 0 := by
              by_cases hind : 0 < ind
              · rw [if_pos hind]; rfl
              · rw [if_neg hind]; rfl
            rw [hz, Nat.add_zero]
            have := ih rest (idx + t.length + 1)
            simpa [Nat.add_assoc] using this
      | codeFenceStart =>
        refine ⟨?_, ?_, ?_⟩
        · intro e he; simp [rangeEnd?] at he
        · intro e he
          simp [rangeEnd?] at he
          simp [insLen]
          omega
        · have := ih ((rest.dropWhile fun l => !(trimStartsFence l)).drop 1)
            (idx + (codeText (rest.takeWhile fun l => !(trimStartsFence l))).length)
          simpa [insLen, rangeEnd?] using this
      | paragraph =>
        refine ⟨?_, ?_⟩
        · intro e he; simp [rangeEnd?] at he
        · simp only [insLen, List.length_append, List.length_cons, List.length_nil,
            Nat.add_zero]
          refine opsOK_append ?_ ?_
          · refine opsOK_of_styles ?_
            intro op hop
            refine ⟨inline_insLen_zero _ _ _ op hop, ?_⟩
            intro e he
            have := inline_rangeEnd_bound line idx op hop e he
            omega
          · rw [inline_sumIns_zero, Nat.add_zero]
            have := ih rest (idx + line.length + 1)
            simpa [Nat.add_assoc] using this

theorem processLinesGo_finalIndex : ∀ (fuel : Nat) (lines : List (List Char)) (idx : Nat),
    (processLinesGo italOfDefault fuel lines idx).2 =
      idx + sumIns (processLinesGo italOfDefault fuel lines idx).1 := by
  intro fuel
  induction fuel with
  | zero => intro lines idx; simp [processLinesGo, sumIns_nil]
  | succ fuel ih =>
    intro lines idx
    cases lines with
    | nil => simp [processLinesGo, sumIns_nil]
    | cons line rest =>
      rw [processLinesGo]
      cases hcl : classifyLine line with
      | blank =>
        have := ih rest (idx + 1)
        simp only [sumIns_cons, insLen]
        simp at this ⊢
        omega
      | heading k t =>
        have := ih rest (idx + t.length + 1)
        simp only [sumIns_cons, insLen, List.length_append, List.length_cons,
          List.length_nil]
        simp at this ⊢
        omega
      | bulleted ind t =>
        have := ih rest (idx + t.length + 1)
        have hz : sumIns (if 0 < ind then
            [Op.updateParagraphStyle (.indentPt (ind * 18) 0) idx (idx + t.length)]
          else []) = 0 := by
          by_cases hind : 0 < ind
          · rw [if_pos hind]; rfl
          · rw [if_neg hind]; rfl
        simp only [sumIns_cons, sumIns_append, insLen, hz, List.length_append,
          List.length_cons, List.length_nil]
        simp at this ⊢
        omega
      | numbered ind t =>
        have := ih rest (idx + t.length + 1)
        have hz : sumIns (if 0 < ind then
            [Op.updateParagraphStyle (.indentPt (ind * 18) 0) idx (idx + t.length)]
          else []) = 0 := by
          by_cases hind : 0 < ind
          · rw [if_pos hind]; rfl
          · rw [if_neg hind]; rfl
        simp only [sumIns_cons, sumIns_append, insLen, hz, List.length_append,
          List.length_cons, List.length_nil]
        simp at this ⊢
        omega
      | codeFenceStart =>
        have := ih ((rest.dropWhile fun l => !(trimStartsFence l)).drop 1)
          (idx + (codeText (rest.takeWhile fun l => !(trimStartsFence l))).length)
        simp only [sumIns_cons, insLen]
        simp at this ⊢
        omega
      | paragraph =>
        have := ih rest (idx + line.length + 1)
        simp only [sumIns_cons, sumIns_append, insLen, inline_sumIns_zero,
          List.length_append, List.length_cons, List.length_nil]
        simp at this ⊢
        omega

/-! ## The run with a failing italic scanner -/

theorem filter_not_italic_bold (ms : List (Nat × Nat)) (s : Nat) :
    ((ms.map fun m => Op.updateTextStyle .bold (s + m.1) (s + m.1 + m.2)).filter
        fun op => !(isItalicOp op)) =
      ms.map fun m => Op.updateTextStyle .bold (s + m.1) (s + m.1 + m.2) := by
  induction ms with
  | nil => rfl
  | cons m t ih =>
    rw [List.map_cons, List.filter_cons, if_pos (by simp [isItalicOp]), ih]

theorem filter_not_italic_italic (ms : List (Nat × Nat)) (s : Nat) :
    ((ms.map fun m => Op.updateTextStyle .italic (s + m.1) (s + m.1 + m.2)).filter
        fun op => !(isItalicOp op)) = [] := by
  induction ms with
  | nil => rfl
  | cons m t ih =>
    rw [List.map_cons, List.filter_cons, if_neg (by simp [isItalicOp]), ih]

theorem filter_not_italic_link (ms : List ((Nat × Nat) × List Char)) (s : Nat) :
    ((ms.map fun m =>
        Op.updateTextStyle (.link m.2) (s + m.1.1) (s + m.1.1 + m.1.2)).filter
        fun op => !(isItalicOp op)) =
      ms.map fun m => Op.updateTextStyle (.link m.2) (s + m.1.1) (s + m.1.1 + m.1.2) := by
  induction ms with
  | nil => rfl
  | cons m t ih =>
    rw [List.map_cons, List.filter_cons, if_pos (by simp [isItalicOp]), ih]

theorem inline_failing (text : List Char) (s : Nat) :
    processInlineFormattingWith none text s =
      (processInlineFormattingWith (italOfDefault text) text s).filter
        fun op => !(isItalicOp op) := by
  rw [processInlineFormattingWith, processInlineFormattingWith, italOfDefault]
  rw [List.filter_append, List.filter_append]
  rw [filter_not_italic_bold, filter_not_italic_link]
  simp only [Option.getD_some, Option.getD_none, filter_not_italic_italic, List.map_nil]

theorem processLinesGo_failing : ∀ (fuel : Nat) (lines : List (List Char)) (idx : Nat),
    processLinesGo italOfFailing fuel lines idx =
      (((processLinesGo italOfDefault fuel lines idx).1).filter fun op => !(isItalicOp op),
       (processLinesGo italOfDefault fuel lines idx).2) := by
  intro fuel
  induction fuel with
  | zero => intro lines idx; rfl
  | succ fuel ih =>
    intro lines idx
    cases lines with
    | nil => rfl
    | cons line rest =>
      rw [processLinesGo, processLinesGo]
      cases hcl : classifyLine line with
      | blank =>
        simp only [ih]
        simp [List.filter_cons, isItalicOp]
      | heading k t =>
        simp only [ih]
        simp [List.filter_cons, isItalicOp]
      | bulleted ind t =>
        simp only [ih]
        by_cases hind : 0 < ind
        · simp [List.filter_cons, List.filter_append, isItalicOp, if_pos hind]
        · simp [List.filter_cons, List.filter_append, isItalicOp, if_neg hind]
      | numbered ind t =>
        simp only [ih]
        by_cases hind : 0 < ind
        · simp [List.filter_cons, List.filter_append, isItalicOp, if_pos hind]
        · simp [List.filter_cons, List.filter_append, isItalicOp, if_neg hind]
      | codeFenceStart =>
        simp only [ih]
        simp [List.filter_cons, isItalicOp]
      | paragraph =>
        simp only [ih]
        simp only [italOfFailing, inline_failing line idx]
        simp [List.filter_cons, List.filter_append, isItalicOp]

/-! ## The claims -/

/-- C1: for every markdown input, every operation emitted by
`convertMarkdownToRequests` that carries a range has its range end no
greater than the cursor value at the time of its emission (cursor starting
at 1 and advanced by the length of each inserted text immediately after its
`insertText`), and the cursor is non-decreasing across the emitted
sequence. -/
theorem cursor_monotonicity (md : List Char) :
    opsOK 1 (convertMarkdownToRequests md) ∧
      ∀ i j, i ≤ j →
        cursorAt (convertMarkdownToRequests md) i ≤
          cursorAt (convertMarkdownToRequests md) j := by
  constructor
  · exact processLinesGo_opsOK _ _ _
  · intro i j hij
    rw [cursorAt, cursorAt]
    have := sumIns_take_mono (convertMarkdownToRequests md) hij
    omega

/-- Witness for C1 at the concrete input `"# t"` and positions 0 ≤ 2. -/
theorem cursor_monotonicity_witness :
    opsOK 1 (convertMarkdownToRequests ("# t".toList)) ∧
      cursorAt (convertMarkdownToRequests ("# t".toList)) 0 ≤
        cursorAt (convertMarkdownToRequests ("# t".toList)) 2 :=
  ⟨(cursor_monotonicity ("# t".toList)).1,
   (cursor_monotonicity ("# t".toList)).2 0 2 (by decide)⟩

/-- C2 counterexample: on input `"- x"` the emitted `insertText` text is
`"x\n"` with no bullet-glyph prefix, and the `createParagraphBullets` range
ends at `cursor + len(text) = 2`, not at `cursor + len(prefix) + len(text)`
(which would be 4 for the two-character glyph prefix the claim describes
for unordered items).  Likewise for the ordered item `"1. a"` (no
`"1. "` prefix re-inserted; range end 2). -/
theorem list_prefix_counterexample :
    convertMarkdownToRequests ("- x".toList) =
      [Op.insertText ("x\n".toList) 1,
       Op.createParagraphBullets 1 2 .bulletDiscCircleSquare] ∧
    convertMarkdownToRequests ("1. a".toList) =
      [Op.insertText ("a\n".toList) 1,
       Op.createParagraphBullets 1 2 .numberedDecimalNested] := by
  constructor
  · decide
  · decide

/-- C2 (amended): for every list-item line (ordered or unordered), the
emitter inserts the item text with **no** glyph prefix — the `insertText`
text is `text + "\n"` — and the emitted list-bullet operation's range ends
at `cursor + len(text)`; an indent style operation follows exactly when the
indent is positive, and processing continues with the remaining lines at
cursor `idx + len(text) + 1`. -/
theorem list_item_no_glyph (line : List Char) (rest : List (List Char))
    (idx ind : Nat) (t : List Char) :
    (bulletedListMatch line = some (ind, t) →
      processLines italOfDefault (line :: rest) idx =
        (Op.insertText (t ++ ['\n']) idx ::
          Op.createParagraphBullets idx (idx + t.length) .bulletDiscCircleSquare ::
          ((if 0 < ind then
              [Op.updateParagraphStyle (.indentPt (ind * 18) 0) idx (idx + t.length)]
            else []) ++ (processLines italOfDefault rest (idx + t.length + 1)).1),
         (processLines italOfDefault rest (idx + t.length + 1)).2)) ∧
    (numberedListMatch line = some (ind, t) →
      processLines italOfDefault (line :: rest) idx =
        (Op.insertText (t ++ ['\n']) idx ::
          Op.createParagraphBullets idx (idx + t.length) .numberedDecimalNested ::
          ((if 0 < ind then
              [Op.updateParagraphStyle (.indentPt (ind * 18) 0) idx (idx + t.length)]
            else []) ++ (processLines italOfDefault rest (idx + t.length + 1)).1),
         (processLines italOfDefault rest (idx + t.length + 1)).2)) := by
  constructor
  · intro h
    have hcl := classify_of_bulleted h
    simp only [processLines, List.length_cons, processLinesGo, hcl]
  · intro h
    have hcl := classify_of_numbered h
    simp only [processLines, List.length_cons, processLinesGo, hcl]

/-- Witness for C2 (amended) at `"- x"` and `"2. b"`. -/
theorem list_item_no_glyph_witness :
    processLines italOfDefault [("- x".toList)] 1 =
      ([Op.insertText ("x\n".toList) 1,
        Op.createParagraphBullets 1 2 .bulletDiscCircleSquare], 3) ∧
    processLines italOfDefault [("2. b".toList)] 1 =
      ([Op.insertText ("b\n".toList) 1,
        Op.createParagraphBullets 1 2 .numberedDecimalNested], 3) :=
  ⟨(list_item_no_glyph ("- x".toList) [] 1 0 ("x".toList)).1 (by decide),
   (list_item_no_glyph ("2. b".toList) [] 1 0 ("b".toList)).2 (by decide)⟩

/-- C3 counterexample: the heading `"# **B**"` yields only the text insert
and the paragraph-style operation — no `updateTextStyle` at all, so a
heading containing bold markers does **not** yield the corresponding
text-style operations the claim asserts. -/
theorem heading_inline_counterexample :
    convertMarkdownToRequests ("# **B**".toList) =
      [Op.insertText ("**B**\n".toList) 1,
       Op.updateParagraphStyle (.namedStyleType 1) 1 6] := by
  decide

/-- C3 (amended): inline-span scanning is applied only to Paragraph block
text.  A heading line emits exactly its insert and one paragraph-style
operation (no text styles, whatever markers its text holds); the same
markers in a paragraph do yield the text-style operation; a list item with
those markers emits no text style; and code-fence content is never scanned
(only the single code-font style is emitted). -/
theorem inline_scan_paragraph_only (line : List Char) (rest : List (List Char))
    (idx k : Nat) (t : List Char) :
    (headingMatch line = some (k, t) →
      processLines italOfDefault (line :: rest) idx =
        (Op.insertText (t ++ ['\n']) idx ::
          Op.updateParagraphStyle (.namedStyleType k) idx (idx + t.length) ::
          (processLines italOfDefault rest (idx + t.length + 1)).1,
         (processLines italOfDefault rest (idx + t.length + 1)).2)) ∧
    convertMarkdownToRequests ("**B**".toList) =
      [Op.insertText ("**B**\n".toList) 1, Op.updateTextStyle .bold 3 4] ∧
    convertMarkdownToRequests ("- **B**".toList) =
      [Op.insertText ("**B**\n".toList) 1,
       Op.createParagraphBullets 1 6 .bulletDiscCircleSquare] ∧
    convertMarkdownToRequests ("```\n**B**\n```".toList) =
      [Op.insertText ("**B**\n".toList) 1, Op.updateTextStyle .codeFont 1 7] := by
  refine ⟨?_, by decide, by decide, by decide⟩
  intro h
  have hcl := classify_of_heading h
  simp only [processLines, List.length_cons, processLinesGo, hcl]

/-- Witness for C3 (amended) at the heading `"# **B**"`. -/
theorem inline_scan_paragraph_only_witness :
    processLines italOfDefault [("# **B**".toList)] 1 =
      ([Op.insertText ("**B**\n".toList) 1,
        Op.updateParagraphStyle (.namedStyleType 1) 1 6], 7) ∧
    convertMarkdownToRequests ("**B**".toList) =
      [Op.insertText ("**B**\n".toList) 1, Op.updateTextStyle .bold 3 4] ∧
    convertMarkdownToRequests ("- **B**".toList) =
      [Op.insertText ("**B**\n".toList) 1,
       Op.createParagraphBullets 1 6 .bulletDiscCircleSquare] ∧
    convertMarkdownToRequests ("```\n**B**\n```".toList) =
      [Op.insertText ("**B**\n".toList) 1, Op.updateTextStyle .codeFont 1 7] := by
  have h := inline_scan_paragraph_only ("# **B**".toList) [] 1 1 ("**B**".toList)
  exact ⟨h.1 (by decide), h.2.1, h.2.2.1, h.2.2.2⟩

/-- C4 counterexample: converting `"# Title\n"` does **not** produce only
the two claimed operations — splitting on `'\n'` leaves a trailing empty
line, which emits a third operation. -/
theorem heading_title_counterexample :
    convertMarkdownToRequests ("# Title\n".toList) ≠
      [Op.insertText ("Title\n".toList) 1,
       Op.updateParagraphStyle (.namedStyleType 1) 1 6] := by
  decide

/-- C4 (amended): converting `"# Title\n"` produces exactly one
`insertText` of `"Title\n"` at index 1, then one paragraph-style operation
setting HEADING_1 over the range [1,6], then one `insertText` of `"\n"` at
index 7 arising from the empty line after the trailing newline — and no
other operations. -/
theorem heading_title_ops :
    convertMarkdownToRequests ("# Title\n".toList) =
      [Op.insertText ("Title\n".toList) 1,
       Op.updateParagraphStyle (.namedStyleType 1) 1 6,
       Op.insertText ['\n'] 7] := by
  decide

/-- C5 counterexample: on the line `"***wow***"` neither a bold nor an
italic `updateTextStyle` over the inner-text range of `"wow"` (absolute
range [4,7]) is emitted, and no italic operation is emitted at all —
refuting the claim that both a bold and an italic operation cover that
same inner-text range. -/
theorem bold_italic_overlap_counterexample :
    Op.updateTextStyle .italic 4 7 ∉ convertMarkdownToRequests ("***wow***".toList) ∧
    Op.updateTextStyle .bold 4 7 ∉ convertMarkdownToRequests ("***wow***".toList) ∧
    (convertMarkdownToRequests ("***wow***".toList)).filter isItalicOp = [] := by
  refine ⟨by decide, by decide, by decide⟩

/-- C5 (amended): the input `"***wow***"` produces exactly one bold
`updateTextStyle` over range [3,7] — the lazy bold match takes `"*wow"` as
inner text, leaving the trailing asterisks — and no italic operation (the
italic regex's lookarounds reject every candidate position). -/
theorem bold_italic_overlap_actual :
    convertMarkdownToRequests ("***wow***".toList) =
      [Op.insertText ("***wow***\n".toList) 1, Op.updateTextStyle .bold 3 7] := by
  decide

/-- C6: for every markdown input, the total length of the texts of all
emitted `insertText` operations equals the cursor's final value minus 1
(equivalently, final cursor = 1 + total inserted length). -/
theorem round_trip_text_length (md : List Char) :
    sumIns (convertMarkdownToRequests md) + 1 = finalIndex md := by
  have h := processLinesGo_finalIndex (splitLines md).length (splitLines md) 1
  rw [finalIndex, processLines, h]
  rw [convertMarkdownToRequests, convertMarkdownToRequestsWith, processLines]
  omega

/-- C7: when a code-fence opening line is followed only by lines that never
close the fence, the converter consumes all remaining lines as code
content, emitting exactly one `insertText` of the joined content and one
Courier-New/background `updateTextStyle` over it, and completes. -/
theorem unterminated_fence (line : List Char) (rest : List (List Char)) (idx : Nat)
    (h1 : codeStartMatch line = true)
    (h2 : ∀ l ∈ rest, trimStartsFence l = false) :
    processLines italOfDefault (line :: rest) idx =
      ([Op.insertText (codeText rest) idx,
        Op.updateTextStyle .codeFont idx (idx + (codeText rest).length)],
       idx + (codeText rest).length) := by
  have hcl := classify_of_fence h1
  have htw : (rest.takeWhile fun l => !(trimStartsFence l)) = rest :=
    List.takeWhile_eq_self_iff.mpr (by intro x hx; simp [h2 x hx])
  have hdw : (rest.dropWhile fun l => !(trimStartsFence l)) = [] :=
    List.dropWhile_eq_nil_iff.mpr (by intro x hx; simp [h2 x hx])
  simp only [processLines, List.length_cons, processLinesGo, hcl, htw, hdw,
    List.drop_nil, processLinesGo_nil]

/-- Witness for C7: an opening fence followed by the single line `"a"`. -/
theorem unterminated_fence_witness :
    processLines italOfDefault [("```".toList), ("a".toList)] 1 =
      ([Op.insertText (codeText [("a".toList)]) 1,
        Op.updateTextStyle .codeFont 1 (1 + (codeText [("a".toList)]).length)],
       1 + (codeText [("a".toList)]).length) :=
  unterminated_fence ("```".toList) [("a".toList)] 1 (by decide) (by decide)

/-- C8: if italic-span detection raises an internal error (modelled by the
italic scanner returning `none`, the `catch` branch of the source), only
the italic `updateTextStyle` operations are dropped from the output: the
result is exactly the normal conversion with its italic operations filtered
out — all `insertText`, bold, link, paragraph-style and bullet operations
survive, and the conversion completes. -/
theorem italic_failure_skips_only_italic (md : List Char) :
    convertMarkdownToRequestsWith italOfFailing md =
      (convertMarkdownToRequests md).filter fun op => !(isItalicOp op) := by
  rw [convertMarkdownToRequestsWith, convertMarkdownToRequests,
    convertMarkdownToRequestsWith, processLines, processLines,
    processLinesGo_failing]

/-- C9: converting the empty string does not yield an empty operation
sequence — it yields exactly one operation, an `insertText` of a single
newline at index 1 (the empty input is one blank line). -/
theorem empty_input_single_newline :
    convertMarkdownToRequests ("".toList) = [Op.insertText ['\n'] 1] := by
  decide

/-- C10: on the paragraph `"****"` the inline scanner emits a bold
`updateTextStyle` whose range start equals its range end (the zero-width
range [3,3]), because the bold pattern permits empty inner text between
the delimiters. -/
theorem zero_width_bold_range :
    convertMarkdownToRequests ("****".toList) =
      [Op.insertText ("****\n".toList) 1, Op.updateTextStyle .bold 3 3] := by
  decide
